import Mathlib

/-!
Shallow embedding of the AQM_CCA socket-diagnostics telemetry core:
`scripts/parse_ss_tin_output.py` and `scripts/publish_ss_json_http.py`.
Python strings are modelled as Lean `String` (lists of characters); the
value of a Python `float` literal is modelled exactly as a decimal
`mantissa / 10 ^ scale` pair (the claims under study concern which
coercion rule fires and the structural shape of the result, not IEEE
rounding); Python dicts are modelled as insertion-ordered association
lists; a Python exception is modelled as `Option` (`none` = the call
raised).
-/

namespace AqmCca

/-- Python `str.isspace` for a single character, modelled for the ASCII
whitespace characters (space, tab, newline, carriage return, vertical tab,
form feed).  Rare Unicode whitespace is outside the model. -/
def pyIsSpace (c : Char) : Bool :=
  c = ' ' || c = '\t' || c = '\n' || c = '\r' || c = '\x0b' || c = '\x0c'

/-- ASCII decimal digit (regex `\d`, Python `str.isdigit` per character). -/
def isDigitChar (c : Char) : Bool :=
  '0' ≤ c && c ≤ '9'

/-- Characters of the regex class `[A-Za-z0-9_]` (a "word" character). -/
def isWordChar (c : Char) : Bool :=
  ('a' ≤ c && c ≤ 'z') || ('A' ≤ c && c ≤ 'Z') || isDigitChar c || c = '_'

/-- Characters of the regex class `[A-Za-z]`. -/
def isAlphaChar (c : Char) : Bool :=
  ('a' ≤ c && c ≤ 'z') || ('A' ≤ c && c ≤ 'Z')

/-- Characters of the unit class `[A-Za-z%/]` of `RE_NUM_UNIT`. -/
def isUnitChar (c : Char) : Bool :=
  isAlphaChar c || c = '%' || c = '/'

/-- Python `str.lstrip()` on a character list. -/
def lstripChars (cs : List Char) : List Char :=
  cs.dropWhile pyIsSpace

/-- Python `str.strip()` on a character list. -/
def stripChars (cs : List Char) : List Char :=
  ((cs.dropWhile pyIsSpace).reverse.dropWhile pyIsSpace).reverse

/-- Python `str.lstrip()`. -/
def pyLstrip (s : String) : String :=
  ⟨lstripChars s.data⟩

/-- Python `str.strip()` (strip surrounding whitespace). -/
def pyStrip (s : String) : String :=
  ⟨stripChars s.data⟩

/-- Python `str.strip(",")` (strip leading and trailing comma characters). -/
def pyStripCommas (s : String) : String :=
  ⟨((s.data.dropWhile (· = ',')).reverse.dropWhile (· = ',')).reverse⟩

/-- `l` begins with the pattern `pat`. -/
def isPrefixList : List Char → List Char → Bool
  | [], _ => true
  | _ :: _, [] => false
  | p :: ps, c :: cs => p = c && isPrefixList ps cs

def containsSubAux (pat : List Char) : List Char → Bool
  | [] => isPrefixList pat []
  | c :: cs => isPrefixList pat (c :: cs) || containsSubAux pat cs

/-- Python `sub in s`: `sub` occurs contiguously in `s`. -/
def containsSub (s sub : String) : Bool :=
  containsSubAux sub.data s.data

/-- Python `c in s` for a single character. -/
def containsChar (s : String) (c : Char) : Bool :=
  s.data.contains c

/-- Python `s.startswith(p)`. -/
def pyStartsWith (s p : String) : Bool :=
  s.data.take p.data.length = p.data

/-- Python `s.isdigit()`, modelled for ASCII digits: non-empty and all
characters decimal digits. -/
def pyIsdigit (s : String) : Bool :=
  !s.data.isEmpty && s.data.all isDigitChar

/-- Numeric value of a non-empty ASCII digit string. -/
def digitsToNat (cs : List Char) : Nat :=
  cs.foldl (fun acc c => acc * 10 + (c.toNat - '0'.toNat)) 0

/-- Python `splitlines`, modelled for the line boundaries `"\n"`, `"\r\n"`,
`"\r"`, `"\x0b"`, `"\x0c"` (the rarer Unicode boundaries are outside the
model).  Terminators are removed; no trailing empty line is produced. -/
def splitlinesAux : List Char → List Char → List (List Char)
  | [], acc => [acc.reverse]
  | '\r' :: '\n' :: rest, acc => acc.reverse :: splitlinesAux rest []
  | '\r' :: rest, acc => acc.reverse :: splitlinesAux rest []
  | '\n' :: rest, acc => acc.reverse :: splitlinesAux rest []
  | '\x0b' :: rest, acc => acc.reverse :: splitlinesAux rest []
  | '\x0c' :: rest, acc => acc.reverse :: splitlinesAux rest []
  | c :: rest, acc => splitlinesAux rest (c :: acc)

/-- Python `s.splitlines()`. -/
def pySplitlines (s : String) : List String :=
  match s.data with
  | [] => []
  | cs => (splitlinesAux cs []).map (⟨·⟩)

/-- Python `s.split()` with no separator: split on whitespace runs,
dropping empty pieces. -/
def splitWsAux : List Char → List Char → List String
  | [], acc => if acc.isEmpty then [] else [⟨acc.reverse⟩]
  | c :: rest, acc =>
    if pyIsSpace c then
      if acc.isEmpty then splitWsAux rest []
      else ⟨acc.reverse⟩ :: splitWsAux rest []
    else splitWsAux rest (c :: acc)

/-- Python `s.split()` (whitespace tokenisation). -/
def pySplitWs (s : String) : List String :=
  splitWsAux s.data []

/-- Python `s.split(sep, 1)`: split at the first occurrence of the single
character `sep`; `none` when `sep` does not occur. -/
def splitOnceAux (sep : Char) : List Char → List Char → Option (String × String)
  | [], _ => none
  | c :: rest, acc =>
    if c = sep then some (⟨acc.reverse⟩, ⟨rest⟩)
    else splitOnceAux sep rest (c :: acc)

def pySplitOnce (s : String) (sep : Char) : Option (String × String) :=
  splitOnceAux sep s.data []

/-- Python `s.rsplit(sep, 1)` for a single character separator: split at
the last occurrence; `none` when `sep` does not occur. -/
def pyRsplitOnce (s : String) (sep : Char) : Option (String × String) :=
  match splitOnceAux sep s.data.reverse [] with
  | none => none
  | some (r, l) => some (⟨l.data.reverse⟩, ⟨r.data.reverse⟩)

/-- Split on every occurrence of a separator character (empty pieces
kept; the empty input yields one empty piece, as in Python). -/
def splitCharAux (sep : Char) : List Char → List Char → List String
  | [], acc => [⟨acc.reverse⟩]
  | c :: rest, acc =>
    if c = sep then ⟨acc.reverse⟩ :: splitCharAux sep rest []
    else splitCharAux sep rest (c :: acc)

/-- Python `s.split(",")`. -/
def pySplitCommas (s : String) : List String :=
  splitCharAux ',' s.data []

/-!  ## Dynamic Python values

The parser builds heterogeneous Python values: strings, ints, floats,
lists, and dicts.  Dicts keep insertion order; overwriting a key keeps its
position.  `float m k` is the exact decimal value `m / 10 ^ k` (see the
file header). -/

inductive PyVal : Type where
  | str : String → PyVal
  | int : Int → PyVal
  | float : Int → Nat → PyVal
  | list : List PyVal → PyVal
  | dict : List (String × PyVal) → PyVal

/-- `d[k] = v` on an insertion-ordered dict: update in place when the key
exists, append otherwise. -/
def dictSet (d : List (String × PyVal)) (k : String) (v : PyVal) :
    List (String × PyVal) :=
  match d with
  | [] => [(k, v)]
  | (k', v') :: rest =>
    if k' = k then (k', v) :: rest else (k', v') :: dictSet rest k v

/-- Python `k in d` / `d.get(k)` lookup. -/
def dictGet (d : List (String × PyVal)) (k : String) : Option PyVal :=
  match d with
  | [] => none
  | (k', v) :: rest => if k' = k then some v else dictGet rest k

/-- Python `d.setdefault(k, []).append(x)` where the list elements are
strings.  Returns `none` (an `AttributeError`) when `k` is already bound
to a non-list value. -/
def dictAppendStr (d : List (String × PyVal)) (k : String) (x : String) :
    Option (List (String × PyVal)) :=
  match dictGet d k with
  | none => some (d ++ [(k, PyVal.list [PyVal.str x])])
  | some (PyVal.list xs) => some (dictSet d k (PyVal.list (xs ++ [PyVal.str x])))
  | some _ => none

/-!  ## Regex-equivalent matchers

Each regular expression of the source is deterministic on its character
classes (adjacent subpatterns draw from disjoint classes), so backtracking
never changes the outcome and every matcher below is a direct maximal-run
scanner. -/

/-- `RE_INT = ^[+-]?\d+$`. -/
def matchesInt (s : String) : Bool :=
  match s.data with
  | [] => false
  | c :: rest =>
    if c = '+' || c = '-' then !rest.isEmpty && rest.all isDigitChar
    else (c :: rest).all isDigitChar

/-- Digit/point body of `RE_FLOAT`: `\d+\.\d*|\d*\.\d+|\d+`. -/
def floatBody (cs : List Char) : Bool :=
  match splitOnceAux '.' cs [] with
  | none => !cs.isEmpty && cs.all isDigitChar
  | some (l, r) =>
    l.data.all isDigitChar && r.data.all isDigitChar &&
      !(l.data.isEmpty && r.data.isEmpty)

/-- `RE_FLOAT = ^[+-]?(?:\d+\.\d*|\d*\.\d+|\d+)$`. -/
def matchesFloat (s : String) : Bool :=
  match s.data with
  | [] => false
  | c :: rest => if c = '+' || c = '-' then floatBody rest else floatBody (c :: rest)

/-- `RE_IDENTIFIER = ^[A-Za-z_][A-Za-z0-9_]*$`. -/
def matchesIdentifier (s : String) : Bool :=
  match s.data with
  | [] => false
  | c :: rest => (isAlphaChar c || c = '_') && rest.all isWordChar

/-- Value of the Python `int(s)` call on a string matched by `RE_INT`. -/
def pyIntVal (s : String) : Int :=
  match s.data with
  | '+' :: rest => Int.ofNat (digitsToNat rest)
  | '-' :: rest => -Int.ofNat (digitsToNat rest)
  | cs => Int.ofNat (digitsToNat cs)

/-- Value of the Python `float(s)` call on a string matched by
`RE_FLOAT`, as an exact decimal `mantissa / 10 ^ scale` pair: the
mantissa is the digit string with the point removed, the scale the
number of fraction digits. -/
def pyFloatVal (s : String) : Int × Nat :=
  let unsigned : List Char → Int × Nat := fun cs =>
    match splitOnceAux '.' cs [] with
    | none => (Int.ofNat (digitsToNat cs), 0)
    | some (l, r) =>
      (Int.ofNat (digitsToNat l.data * 10 ^ r.data.length + digitsToNat r.data),
        r.data.length)
  match s.data with
  | '+' :: rest => unsigned rest
  | '-' :: rest => ((unsigned rest).1.neg, (unsigned rest).2)
  | cs => unsigned cs

/-- Python `float(t) if "." in t else int(t)` — the numeric typing rule
used throughout `coerce_value`. -/
def numOf (t : String) : PyVal :=
  if containsChar t '.' then PyVal.float (pyFloatVal t).1 (pyFloatVal t).2
  else PyVal.int (pyIntVal t)

/-- `RE_NUM_UNIT = ^(float)(unit+)$` with `unit = [A-Za-z%/]`.  The numeric
class (sign, digit, point) and the unit class are disjoint, so the split
point is the first unit character; the tail must be all unit characters
and the prefix must match `RE_FLOAT`. -/
def matchNumUnit (s : String) : Option (String × String) :=
  let pre := s.data.takeWhile (fun c => !isUnitChar c)
  let suf := s.data.dropWhile (fun c => !isUnitChar c)
  if suf.isEmpty then none
  else if suf.all isUnitChar && matchesFloat ⟨pre⟩ then some (⟨pre⟩, ⟨suf⟩)
  else none

/-- Python `s.endswith("/")`. -/
def pyEndsWithSlash (s : String) : Bool :=
  match s.data.reverse with
  | [] => false
  | c :: _ => c = '/'

/-- The rule chain of `coerce_value` after the initial
`s = s.strip().strip(",")` rebinding (lines 102–137): empty; `a/b`
numeric pair; comma list; int; float; number-with-unit; else the string
unchanged. -/
def coerceCore (s : String) : PyVal :=
  if s = "" then PyVal.str s
  else
    -- pair a/b
    let pair : Option PyVal :=
      if containsChar s '/' && !pyStartsWith s "/" && !pyEndsWithSlash s then
        match pySplitOnce s '/' with
        | some (l, r) =>
          let left := pyStrip l
          let right := pyStrip r
          if matchesFloat left && matchesFloat right then
            some (PyVal.dict [("a", numOf left), ("b", numOf right)])
          else none
        | none => none
      else none
    match pair with
    | some v => v
    | none =>
      -- comma list
      if containsChar s ',' && !("()[]{}".data.any (containsChar s ·)) then
        let parts := (pySplitCommas s).map pyStrip |>.filter (· ≠ "")
        if !parts.isEmpty && parts.all matchesFloat then
          PyVal.list (parts.map numOf)
        else
          PyVal.list (parts.map PyVal.str)
      -- int or float
      else if matchesInt s then PyVal.int (pyIntVal s)
      else if matchesFloat s then PyVal.float (pyFloatVal s).1 (pyFloatVal s).2
      else
        -- number with unit
        match matchNumUnit s with
        | some (num, unit) => PyVal.dict [("value", numOf num), ("unit", PyVal.str unit)]
        | none => PyVal.str s

/-- `coerce_value` (lines 89–137): strip surrounding whitespace, then
leading/trailing commas, then apply the rule chain. -/
def coerce_value (s₀ : String) : PyVal :=
  coerceCore (pyStripCommas (pyStrip s₀))

/-- One step of `parse_paren_body`'s loop body over an accumulated dict;
`none` models the `AttributeError` of `setdefault("items", []).append`
hitting a non-list. -/
def parenBodyStep (d : List (String × PyVal)) (p : String) :
    Option (List (String × PyVal)) :=
  match pySplitOnce p ':' with
  | some (k, v) => some (dictSet d (pyStrip k) (coerce_value (pyStrip v)))
  | none => dictAppendStr d "items" p

def parenBodyLoop (d : List (String × PyVal)) :
    List String → Option (List (String × PyVal))
  | [] => some d
  | p :: rest =>
    match parenBodyStep d p with
    | some d' => parenBodyLoop d' rest
    | none => none

/-- `parse_paren_body` (lines 140–158): the inside of `name:(...)` as a
flat comma-separated sequence of `key:value` pairs; colon-free pieces are
appended to an `items` list. -/
def parse_paren_body (body : String) : Option (List (String × PyVal)) :=
  let parts := (pySplitCommas (pyStrip body)).map pyStrip |>.filter (· ≠ "")
  parenBodyLoop [] parts

/-- A match attempt of `RE_PAREN_GROUP = (?P<name>[A-Za-z0-9_]+):\((?P<body>[^)]*)\)`
at the head of the character list: maximal word run, then `:(`, then the
run up to the first `)`, then `)`.  Returns name, body and the rest. -/
def notRParen (c : Char) : Bool :=
  !(c = ')')

def tryGroupAt (cs : List Char) : Option (String × String × List Char) :=
  if (cs.takeWhile isWordChar).isEmpty then none
  else
    match cs.dropWhile isWordChar with
    | ':' :: '(' :: r2 =>
      match r2.dropWhile notRParen with
      | ')' :: r4 => some (⟨cs.takeWhile isWordChar⟩, ⟨r2.takeWhile notRParen⟩, r4)
      | _ => none
    | _ => none

theorem takeWhile_dropWhile_length (p : Char → Bool) (l : List Char) :
    (l.takeWhile p).length + (l.dropWhile p).length = l.length := by
  rw [← List.length_append, List.takeWhile_append_dropWhile]

theorem tryGroupAt_length {cs : List Char} {n b : String} {rest : List Char}
    (h : tryGroupAt cs = some (n, b, rest)) : rest.length < cs.length := by
  unfold tryGroupAt at h
  split at h
  · exact absurd h (by simp)
  · rename_i hne
    split at h
    · rename_i r2 hd
      split at h
      · rename_i r4 hr
        have h1 := takeWhile_dropWhile_length isWordChar cs
        have h2 := takeWhile_dropWhile_length notRParen r2
        rw [hd] at h1
        rw [hr] at h2
        have hname : 0 < (cs.takeWhile isWordChar).length := by
          cases hcs : cs.takeWhile isWordChar with
          | nil => rw [hcs] at hne; exact absurd rfl hne
          | cons c cs' => simp
        have hrest : rest = r4 := by
          have h' := Option.some.inj h
          exact (congrArg (fun t => t.2.2) h').symm
        subst hrest
        simp only [List.length_cons] at h1 h2
        omega
      · exact absurd h (by simp)
    · exact absurd h (by simp)

/-- `RE_PAREN_GROUP.finditer` plus `RE_PAREN_GROUP.sub("", ·)` in one
scan: the non-overlapping matches left to right (advancing one character
when no match starts at the current position) and the residual text with
the matched spans removed.  Structured as structural recursion on a fuel
argument (a match consumes at least one character, so `cs.length` fuel
always suffices; the zero-fuel branch is unreachable). -/
def scanGroupsFuel : Nat → List Char → List (String × String) × List Char
  | 0, cs => ([], cs)
  | fuel + 1, cs =>
    match cs with
    | [] => ([], [])
    | c :: cs2 =>
      match tryGroupAt (c :: cs2) with
      | some (n, b, rest) =>
        let r := scanGroupsFuel fuel rest
        ((n, b) :: r.1, r.2)
      | none =>
        let r := scanGroupsFuel fuel cs2
        (r.1, c :: r.2)

def scanGroups (cs : List Char) : List (String × String) × List Char :=
  scanGroupsFuel cs.length cs

/-- `parse_paren_body` applied to every scanned group in order, building
the `paren_groups` dict (re-assignment of a name keeps its position, as in
a Python dict). -/
def groupsLoop (acc : List (String × PyVal)) :
    List (String × String) → Option (List (String × PyVal))
  | [] => some acc
  | (n, b) :: rest =>
    match parse_paren_body b with
    | some d => groupsLoop (dictSet acc n (PyVal.dict d)) rest
    | none => none

/-- The flag/unparsed fallthrough of the token scan (lines 223–227):
an identifier token is appended to `flags`, anything else to
`unparsed`; `none` models the `AttributeError` of appending to a
non-list entry. -/
def metricsFlagStep (m : List (String × PyVal)) (t : String) :
    Option (List (String × PyVal)) :=
  if matchesIdentifier t then dictAppendStr m "flags" t
  else dictAppendStr m "unparsed" t

/-- The token scan of `parse_metrics` (lines 197–229): `key:value`
tokens, `key value` lookahead pairs (consuming two tokens), identifier
flags, and unparsed tokens.  The one-token case inlines the final
(trivially terminating) iteration. -/
def metricsLoop : List (String × PyVal) → List String →
    Option (List (String × PyVal))
  | m, [] => some m
  | m, [t] =>
    match pySplitOnce t ':' with
    | some (k, v) =>
      -- token contains ':' → key:value
      let kk := pyStrip k
      if kk = "" then some m
      else some (dictSet m kk (coerce_value (pyStrip v)))
    | none => metricsFlagStep m t
  | m, t :: nxt :: rest2 =>
    match pySplitOnce t ':' with
    | some (k, v) =>
      -- token contains ':' → key:value
      let kk := pyStrip k
      if kk = "" then metricsLoop m (nxt :: rest2)
      else metricsLoop (dictSet m kk (coerce_value (pyStrip v))) (nxt :: rest2)
    | none =>
      -- identifier followed by a value-looking colon-free token
      if matchesIdentifier t && !containsChar nxt ':' &&
          (matchesFloat nxt || (matchNumUnit nxt).isSome || matchesInt nxt) then
        metricsLoop (dictSet m t (coerce_value nxt)) rest2
      else
        match metricsFlagStep m t with
        | some m2 => metricsLoop m2 (nxt :: rest2)
        | none => none

/-- `parse_metrics` (lines 161–231): join the continuation lines, extract
`name:(...)` groups first and remove their spans, then tokenize the
residual text; the first colon-free identifier token becomes the `cc`
tag. -/
def parse_metrics (lines : List String) : Option (List (String × PyVal)) :=
  let text := pyStrip (String.intercalate " " (lines.map pyStrip))
  let metrics : List (String × PyVal) := [("raw", PyVal.str text)]
  if text = "" then some metrics
  else
    let scanned := scanGroups text.data
    match groupsLoop [] scanned.1 with
    | none => none
    | some pg =>
      let metrics := if scanned.1.isEmpty then metrics
        else dictSet metrics "groups" (PyVal.dict pg)
      let textWo := if scanned.1.isEmpty then text else pyStrip ⟨scanned.2⟩
      match pySplitWs textWo with
      | [] => metricsLoop metrics []
      | t0 :: trest =>
        if !containsChar t0 ':' && matchesIdentifier t0 then
          metricsLoop (dictSet metrics "cc" (PyVal.str t0)) trest
        else metricsLoop metrics (t0 :: trest)

/-!  ## Endpoint parsing -/

/-- The `port` field of a parsed endpoint: null, an integer, or the
literal non-numeric right-hand substring. -/
inductive PortField : Type where
  | null : PortField
  | num : Int → PortField
  | str : String → PortField
  deriving DecidableEq

/-- Result of `parse_ip_port`: `{"raw": ..., "ip": ..., "port": ...}`. -/
structure IpPort : Type where
  raw : String
  ip : Option String
  port : PortField
  deriving DecidableEq

/-- The bracket-endpoint regex `^\[(?P<ip>.*)\]:(?P<port>\d+)$` (line 69).
Greedy `.*` selects the last `]:` that is followed by digits only; `.`
does not cross a newline.  Scans from the right: maximal trailing digit
run, preceded by `]:`, preceded by the (newline-free) ip. -/
def matchBracketEP (cs : List Char) : Option (String × Nat) :=
  match cs with
  | '[' :: rest =>
    let rev := rest.reverse
    let digits := rev.takeWhile isDigitChar
    if digits.isEmpty then none
    else
      match rev.dropWhile isDigitChar with
      | ':' :: ']' :: ipRev =>
        if ipRev.contains '\n' then none
        else some (⟨ipRev.reverse⟩, digitsToNat digits.reverse)
      | _ => none
  | _ => none

/-- `parse_ip_port` (lines 57–86): bracketed IPv6 `[ip]:port`, else split
at the last colon (integer port only when the right side is all digits),
else the whole (stripped) token as `ip` with a null port. -/
def parse_ip_port (addr_port : String) : IpPort :=
  let s := pyStrip addr_port
  if pyStartsWith s "[" then
    match matchBracketEP s.data with
    | some (ip, port) => ⟨addr_port, some ip, PortField.num (Int.ofNat port)⟩
    | none => ⟨addr_port, none, PortField.null⟩
  else
    match pyRsplitOnce s ':' with
    | some (ip, port) =>
      if pyIsdigit port then ⟨addr_port, some ip, PortField.num (pyIntVal port)⟩
      else ⟨addr_port, some ip, PortField.str port⟩
    | none => ⟨addr_port, some s, PortField.null⟩

/-!  ## Block splitting -/

/-- Python `ln[:1].isspace()`: the line starts with a whitespace
character. -/
def firstCharIsSpace (ln : String) : Bool :=
  match ln.data with
  | [] => false
  | c :: _ => pyIsSpace c

/-- The loop of `split_blocks` (lines 33–52).  `cur = none` before the
first header; a stray indented line met with no header yet is emitted as
an empty-header block (the source's "stray continuation, keep anyway"). -/
def splitBlocksGo : List String → Option String → List String →
    List (String × List String)
  | [], none, _ => []
  | [], some h, cc => [(h, cc)]
  | ln :: rest, cur, cc =>
    if pyStrip ln = "" then splitBlocksGo rest cur cc
    else if pyStartsWith (pyLstrip ln) "State " then splitBlocksGo rest cur cc
    else if firstCharIsSpace ln then
      match cur with
      | some h => splitBlocksGo rest (some h) (cc ++ [pyStrip ln])
      | none => ("", [pyStrip ln]) :: splitBlocksGo rest none cc
    else
      match cur with
      | some h => (h, cc) :: splitBlocksGo rest (some (pyStrip ln)) []
      | none => splitBlocksGo rest (some (pyStrip ln)) []

/-- `split_blocks` (lines 22–54): blocks start at a non-indented line and
absorb following indented lines; blank lines and lines whose stripped
form begins with `State ` are skipped. -/
def split_blocks (s : String) : List (String × List String) :=
  splitBlocksGo (pySplitlines s) none []

/-!  ## Header matching and the top-level parser -/

/-- Groups of `RE_HEADER =
`^(?P<state>\S+)\s+(?P<recvq>\d+)\s+(?P<sendq>\d+)\s+(?P<local>\S+)\s+(?P<peer>\S+)(?:\s+(?P<proc>.*))?$``. -/
structure HeaderGroups : Type where
  state : String
  recvq : Nat
  sendq : Nat
  toLocal : String
  peer : String
  proc : Option String
  deriving DecidableEq

/-- `RE_HEADER.match` on a newline-free line.  Adjacent subpatterns draw
from disjoint character classes (`\S`/`\s`, `\d`/`\s`), so each is a
maximal run; the optional trailing group takes everything after the first
whitespace run following `peer`. -/
def matchHeader (s : String) : Option HeaderGroups :=
  let notSp := fun c => !pyIsSpace c
  let cs := s.data
  let state := cs.takeWhile notSp
  if state.isEmpty then none
  else
    let r1 := cs.dropWhile notSp
    let r2 := r1.dropWhile pyIsSpace
    if r1.isEmpty then none
    else
      let recvq := r2.takeWhile isDigitChar
      let r3 := r2.dropWhile isDigitChar
      if recvq.isEmpty then none
      else
        let r4 := r3.dropWhile pyIsSpace
        if r3.isEmpty then none
        else if !pyIsSpace (r3.headD ' ') then none
        else
          let sendq := r4.takeWhile isDigitChar
          let r5 := r4.dropWhile isDigitChar
          if sendq.isEmpty then none
          else
            let r6 := r5.dropWhile pyIsSpace
            if r5.isEmpty then none
            else if !pyIsSpace (r5.headD ' ') then none
            else
              let lo := r6.takeWhile notSp
              let r7 := r6.dropWhile notSp
              if lo.isEmpty then none
              else
                let r8 := r7.dropWhile pyIsSpace
                if r7.isEmpty then none
                else
                  let pe := r8.takeWhile notSp
                  let r9 := r8.dropWhile notSp
                  if pe.isEmpty then none
                  else
                    let proc : Option String :=
                      match r9 with
                      | [] => none
                      | _ => some ⟨r9.dropWhile pyIsSpace⟩
                    some ⟨⟨state⟩, digitsToNat recvq, digitsToNat sendq,
                      ⟨lo⟩, ⟨pe⟩, proc⟩

/-- One element of the `sockets` list: either the raw preservation of an
unmatched header, or a fully parsed record. -/
inductive SocketEntry : Type where
  | raw (raw_header : String) (raw_cont : List String) : SocketEntry
  | parsed (state : String) (recv_q send_q : Int) (toLocal peer : IpPort)
      (process : String) (header_raw : String)
      (metrics : List (String × PyVal)) (cont_lines_raw : List String) :
      SocketEntry

/-- The block loop of `parse_ss_tin_output` (lines 238–265): empty-header
(stray-continuation) blocks are skipped; unmatched headers are kept raw;
matched headers are fully parsed.  `none` models an exception escaping
the loop. -/
def processBlocks : List (String × List String) → Option (List SocketEntry)
  | [] => some []
  | (h, cont) :: rest =>
    if h = "" then processBlocks rest
    else
      match matchHeader h with
      | none =>
        match processBlocks rest with
        | some l => some (SocketEntry.raw h cont :: l)
        | none => none
      | some g =>
        match parse_metrics cont with
        | none => none
        | some m =>
          match processBlocks rest with
          | some l => some (SocketEntry.parsed g.state (Int.ofNat g.recvq)
              (Int.ofNat g.sendq) (parse_ip_port g.toLocal) (parse_ip_port g.peer)
              (pyStrip ((g.proc).getD "")) h m cont :: l)
          | none => none

/-- The returned document of `parse_ss_tin_output` (lines 267–274).  The
capture timestamp (`datetime.now`) and the hostname (`gethostname`) are
inputs of the model. -/
structure ParseResult : Type where
  captured_at_utc : String
  hostname : String
  source_cmd : String
  sockets : List SocketEntry

/-- `parse_ss_tin_output` (lines 234–274). -/
def parse_ss_tin_output (now hostname text : String) : Option ParseResult :=
  match processBlocks (split_blocks text) with
  | some socks => some ⟨now, hostname, "ss -tin", socks⟩
  | none => none

/-!  ## Collector (publish_ss_json_http.py)

`subprocess.run` outcomes are inputs of the model: each attempted command
either completed with an exit code, stdout and stderr, or timed out with
whatever partial streams were captured. -/

inductive AttemptOutcome : Type where
  | completed (rc : Int) (out err : String) : AttemptOutcome
  | timedOut (out err : String) : AttemptOutcome

/-- The content heuristic of `run_ss_tin_on_host` (line 88):
`("State" in out and "Recv-Q" in out and "Send-Q" in out) or ("ESTAB" in out)`. -/
def looks_like_ss (out : String) : Bool :=
  (containsSub out "State" && containsSub out "Recv-Q" && containsSub out "Send-Q")
    || containsSub out "ESTAB"

/-- An attempt is accepted when it completed with exit status 0 and its
output passes the content heuristic (line 90). -/
def acceptedB : AttemptOutcome → Bool
  | AttemptOutcome.completed rc out _ => rc = 0 && looks_like_ss out
  | AttemptOutcome.timedOut _ _ => false

/-- `f"timeout after {timeout}s"` (line 97). -/
def timeoutErrMsg (t : Int) : String :=
  "timeout after " ++ toString t ++ "s"

/-- The attempt loop of `run_ss_tin_on_host` (lines 82–99): return the
first accepted attempt's triple; otherwise remember the attempt's triple
(rc 124 and a default message for a timeout) and fall through to the next
variant; after the last variant return the remembered triple. -/
def runAttempts (t : Int) : List AttemptOutcome → Int × String × String →
    Int × String × String
  | [], last => last
  | AttemptOutcome.completed rc out err :: rest, _ =>
    if rc = 0 && looks_like_ss out then (rc, out, err)
    else runAttempts t rest (rc, out, err)
  | AttemptOutcome.timedOut out err :: rest, _ =>
    runAttempts t rest (124, out, if err = "" then timeoutErrMsg t else err)

/-- `run_ss_tin_on_host` (lines 70–99) with `last_rc, last_out, last_err
= 1, "", ""` as the initial remembered triple. -/
def run_ss_tin_on_host (t : Int) (attempts : List AttemptOutcome) :
    Int × String × String :=
  runAttempts t attempts (1, "", "")

/-- One line of the index's `hosts` array (lines 142–144 and 154–156). -/
structure IndexEntry : Type where
  host : String
  file : String
  ok : Bool
  rc : Int
  n_sockets : Nat
  deriving DecidableEq

/-- The index document (lines 116–122): `updated_at_utc`, `out_dir`,
`hosts`. -/
structure IndexDoc : Type where
  updated_at_utc : String
  out_dir : String
  hosts : List IndexEntry

/-- A document persisted by the collector: a parsed per-host snapshot
(meta extended with `mininet_host`), a per-host error document, or the
index. -/
inductive StoredDoc : Type where
  | snapshot (doc : ParseResult) (mininet_host : String) : StoredDoc
  | errorDoc (captured_at_utc mininet_host : String) (rc : Int)
      (error : String) (stdout_head : String) : StoredDoc
  | index (idx : IndexDoc) : StoredDoc

/-- The per-host loop of `collect_and_write` (lines 124–156).  `runRes`
gives each host's `run_ss_tin_on_host` triple; `writeFails` tells which
`atomic_write_text` calls raise (an `OSError`); a raised write error
propagates out of the loop (there is no try/except around it), modelled
as `Except.error`.  `pnow`/`ghn` are the timestamp and hostname the
nested `parse_ss_tin_output` call stamps into its own meta. -/
def collectGo (now pnow ghn : String) (runRes : String → Int × String × String)
    (writeFails : String → Bool) :
    List String → List IndexEntry → List (String × StoredDoc) →
    Except String (List IndexEntry × List (String × StoredDoc))
  | [], entries, writes => Except.ok (entries, writes)
  | host :: rest, entries, writes =>
    let r := runRes host
    let rc := r.1
    let out := r.2.1
    let err := r.2.2
    if rc = 0 && pyStrip out ≠ "" then
      match parse_ss_tin_output pnow ghn out with
      | none => Except.error ("parse exception for " ++ host)
      | some parsed =>
        let file := host ++ "_ss_tin.json"
        if writeFails file then Except.error ("write " ++ file)
        else collectGo now pnow ghn runRes writeFails rest
          (entries ++ [⟨host, file, true, rc, parsed.sockets.length⟩])
          (writes ++ [(file, StoredDoc.snapshot parsed host)])
    else
      let file := host ++ "_ss_tin_error.json"
      if writeFails file then Except.error ("write " ++ file)
      else collectGo now pnow ghn runRes writeFails rest
        (entries ++ [⟨host, file, false, rc, 0⟩])
        (writes ++ [(file, StoredDoc.errorDoc now host rc (pyStrip err)
          ⟨out.data.take 2000⟩)])

/-- `collect_and_write` (lines 109–159): run the per-host loop, then
rebuild and write the index.  Returns the index and the ordered list of
(filename, document) persists, or the first escaped exception. -/
def collect_and_write (now pnow ghn outDir : String) (hosts : List String)
    (runRes : String → Int × String × String) (writeFails : String → Bool) :
    Except String (IndexDoc × List (String × StoredDoc)) :=
  match collectGo now pnow ghn runRes writeFails hosts [] [] with
  | Except.error e => Except.error e
  | Except.ok (entries, writes) =>
    let idx : IndexDoc := ⟨now, outDir, entries⟩
    if writeFails "index.json" then Except.error "write index.json"
    else Except.ok (idx, writes ++ [("index.json", StoredDoc.index idx)])

/-!  ## Atomic store (atomic_write_text, lines 102–107)

`tmp = path.with_suffix(path.suffix + ".tmp")` replaces the final suffix
with itself plus `.tmp`, i.e. `tmp = path + ".tmp"`.  The filesystem is a
map from paths to contents; `tmp.write_text` may be realised by the
kernel as any sequence of intermediate states of the temporary file
ending with the complete content, and `tmp.replace(path)` is the atomic
rename.  A concurrent reader observes the state after an arbitrary
prefix of the writer's event trace. -/

def tmpPath (p : String) : String :=
  p ++ ".tmp"

inductive FsEvent : Type where
  | write (p : String) (content : String) : FsEvent
  | rename (src dst : String) : FsEvent

def Fs : Type := String → Option String

def applyEvent (fs : Fs) : FsEvent → Fs
  | FsEvent.write p c => fun q => if q = p then some c else fs q
  | FsEvent.rename src dst => fun q =>
    if q = dst then fs src else if q = src then none else fs q

def applyTrace (fs : Fs) : List FsEvent → Fs
  | [] => fs
  | e :: rest => applyTrace (applyEvent fs e) rest

/-- The event trace of `atomic_write_text path content`: some
intermediate partial states of the temporary file, the complete content
to the temporary file, then the rename over the final path. -/
def atomicWriteTrace (path content : String) (partials : List String) :
    List FsEvent :=
  (partials ++ [content]).map (FsEvent.write (tmpPath path)) ++
    [FsEvent.rename (tmpPath path) path]

/-!  ## Claims -/

/-- C6: endpoint parsing.  A token starting with `[` is parsed by the
bracketed `[ip]:port` rule — in particular `"[2001:db8::1]:22"` parses to
ip `2001:db8::1`, port `22`; otherwise the token is split at its last
colon, the right side becoming an integer port exactly when it is all
digits and staying the literal substring otherwise, with `ip` the left
side; a token with no colon yields the whole token as `ip` and a null
port.  (The non-bracket clauses are stated for whitespace-free tokens,
`pyStrip s = s`; header endpoint tokens are whitespace-delimited fields
and always satisfy this.) -/
theorem parse_ip_port_spec :
    (parse_ip_port "[2001:db8::1]:22" =
      ⟨"[2001:db8::1]:22", some "2001:db8::1", PortField.num 22⟩) ∧
    (∀ s l r, pyStrip s = s → pyStartsWith s "[" = false →
      pyRsplitOnce s ':' = some (l, r) →
      parse_ip_port s =
        ⟨s, some l, if pyIsdigit r then PortField.num (pyIntVal r)
          else PortField.str r⟩) ∧
    (∀ s, pyStrip s = s → pyStartsWith s "[" = false →
      pyRsplitOnce s ':' = none →
      parse_ip_port s = ⟨s, some s, PortField.null⟩) := by
  refine ⟨by decide, ?_, ?_⟩
  · intro s l r hs hb hsp
    simp only [parse_ip_port, hs, hb, hsp, Bool.false_eq_true, if_false]
    split
    · rfl
    · rfl
  · intro s hs hb hsp
    simp only [parse_ip_port, hs, hb, hsp, Bool.false_eq_true, if_false]

/-- Witness for `parse_ip_port_spec`: the colon-split clause at
`"10.0.0.1:5201"` and the no-colon clause at `"plain"`. -/
theorem parse_ip_port_spec_witness :
    parse_ip_port "10.0.0.1:5201" =
      ⟨"10.0.0.1:5201", some "10.0.0.1", PortField.num 5201⟩ ∧
    parse_ip_port "plain" = ⟨"plain", some "plain", PortField.null⟩ := by
  constructor
  · exact parse_ip_port_spec.2.1 "10.0.0.1:5201" "10.0.0.1" "5201"
      (by decide) (by decide) (by decide)
  · exact parse_ip_port_spec.2.2 "plain" (by decide) (by decide) (by decide)

/-- C8: the `a/b` pair rule of `coerce_value`.  Whenever the normalised
value contains `/` (not at either end) and both sides of the first slash
strip to numeric literals, the result is the dict `{a, b}` with each
side's type chosen independently by the presence of a decimal point
(`numOf`) — no other rule is consulted first; in particular
`"1.929/0.888"` coerces to `{a: 1.929, b: 0.888}`, both floats. -/
theorem coerce_value_pair_rule :
    (coerce_value "1.929/0.888" =
      PyVal.dict [("a", PyVal.float 1929 3), ("b", PyVal.float 888 3)]) ∧
    (∀ s l r,
      containsChar (pyStripCommas (pyStrip s)) '/' = true →
      pyStartsWith (pyStripCommas (pyStrip s)) "/" = false →
      pyEndsWithSlash (pyStripCommas (pyStrip s)) = false →
      pySplitOnce (pyStripCommas (pyStrip s)) '/' = some (l, r) →
      matchesFloat (pyStrip l) = true →
      matchesFloat (pyStrip r) = true →
      coerce_value s = PyVal.dict [("a", numOf (pyStrip l)),
        ("b", numOf (pyStrip r))]) := by
  constructor
  · rfl
  · intro s l r hc hns hne hsp hfl hfr
    have hs' : pyStripCommas (pyStrip s) ≠ "" := by
      intro h
      rw [h] at hc
      exact absurd hc (by decide)
    unfold coerce_value coerceCore
    rw [if_neg hs']
    simp only [hc, hns, hne, hsp, hfl, hfr, Bool.not_false, Bool.and_self,
      Bool.true_and, Bool.and_true, if_true]

/-- Witness for `coerce_value_pair_rule` at the mixed pair `"3/4.5"`
(an int left side, a float right side). -/
theorem coerce_value_pair_rule_witness :
    coerce_value "3/4.5" =
      PyVal.dict [("a", PyVal.int 3), ("b", PyVal.float 45 1)] := by
  have h := coerce_value_pair_rule.2 "3/4.5" "3" "4.5"
    (by decide) (by decide) (by decide) (by decide) (by decide) (by decide)
  rw [h]
  rfl

/-- C10 counterexample: `coerce_value ", ,"` — a string of only commas
and whitespace — returns the one-space remnant `" "`, not the empty
string: after `strip()` (a no-op here) and `strip(",")`, the interior
space survives and no later rule matches it. -/
theorem coerce_value_comma_mix_cex :
    coerce_value ", ," = PyVal.str " " ∧ coerce_value ", ," ≠ PyVal.str "" := by
  refine ⟨rfl, fun h => ?_⟩
  have h2 : PyVal.str " " = PyVal.str "" := h
  injection h2 with h3
  exact absurd h3 (by decide)

/-- C10 amended: `coerce_value` first strips surrounding whitespace and
then leading/trailing commas before applying any coercion rule, so
`"12,"` coerces to the integer 12; the empty string — and any string
whose whitespace-stripped form consists only of commas — is returned as
the empty string.  (A commas-and-whitespace mixture whose commas do not
all lie at the ends after whitespace-stripping, such as `", ,"`, instead
returns the interior remnant.) -/
theorem coerce_value_strip_amended :
    (∀ s, coerce_value s = coerceCore (pyStripCommas (pyStrip s))) ∧
    coerce_value "12," = PyVal.int 12 ∧
    coerce_value "" = PyVal.str "" ∧
    (∀ s, pyStripCommas (pyStrip s) = "" → coerce_value s = PyVal.str "") := by
  refine ⟨fun s => rfl, rfl, rfl, fun s h => ?_⟩
  unfold coerce_value
  rw [h]
  rfl

/-- Witness for `coerce_value_strip_amended`: `",,"` whitespace-strips to
itself, comma-strips to empty, and is returned as the empty string. -/
theorem coerce_value_strip_amended_witness :
    coerce_value ",," = PyVal.str "" :=
  coerce_value_strip_amended.2.2.2 ",," (by decide)

theorem tmpPath_ne (p : String) : tmpPath p ≠ p := by
  intro h
  have h2 := congrArg String.length h
  rw [tmpPath, String.length_append] at h2
  have h3 : (".tmp" : String).length = 4 := rfl
  omega

theorem applyTrace_append (a b : List FsEvent) (fs : Fs) :
    applyTrace fs (a ++ b) = applyTrace (applyTrace fs a) b := by
  induction a generalizing fs with
  | nil => rfl
  | cons e rest ih => simp [applyTrace, ih]

/-- Writes to one path leave every other path's content unchanged. -/
theorem applyTrace_writes_other (p q : String) (h : q ≠ p) (ws : List String)
    (fs : Fs) : applyTrace fs (ws.map (FsEvent.write p)) q = fs q := by
  induction ws generalizing fs with
  | nil => rfl
  | cons w rest ih => simp [applyTrace, applyEvent, ih, h]

/-- After a write sequence ending with `c`, the written path holds `c`. -/
theorem applyTrace_writes_last (p : String) (ps : List String) (c : String)
    (fs : Fs) :
    applyTrace fs ((ps ++ [c]).map (FsEvent.write p)) p = some c := by
  induction ps generalizing fs with
  | nil => simp [applyTrace, applyEvent]
  | cons w rest ih =>
    simp only [List.cons_append, List.map_cons, applyTrace]
    exact ih _

/-- C5: the write-then-rename discipline of `atomic_write_text`.  For any
initial filesystem and any interleaving point (any prefix `pre` of the
writer's event trace — partial states of the temporary file included), a
reader of the final path sees either the old content or the complete new
content, and after the full trace it sees exactly the new content. -/
theorem atomic_write_text_reader_safety
    (path content : String) (partials : List String) (fs₀ : Fs)
    (pre suff : List FsEvent)
    (h : atomicWriteTrace path content partials = pre ++ suff) :
    (applyTrace fs₀ pre path = fs₀ path ∨
      applyTrace fs₀ pre path = some content) ∧
    applyTrace fs₀ (atomicWriteTrace path content partials) path =
      some content := by
  have hfull : ∀ fs : Fs,
      applyTrace fs (atomicWriteTrace path content partials) path =
        some content := by
    intro fs
    rw [atomicWriteTrace, applyTrace_append]
    show applyEvent _ (FsEvent.rename (tmpPath path) path) path = some content
    rw [applyEvent]
    simp only [if_pos rfl]
    exact applyTrace_writes_last (tmpPath path) partials content fs
  refine ⟨?_, hfull fs₀⟩
  rcases suff with _ | ⟨e, suff'⟩
  · rw [List.append_nil] at h
    rw [← h]
    exact Or.inr (hfull fs₀)
  · left
    have hlen := congrArg List.length h
    rw [atomicWriteTrace] at hlen
    simp only [List.length_append, List.length_map, List.length_cons,
      List.length_nil] at hlen
    have hle : pre.length ≤ ((partials ++ [content]).map
        (FsEvent.write (tmpPath path))).length := by
      simp only [List.length_map, List.length_append, List.length_cons,
        List.length_nil]
      omega
    have hpre : pre = ((partials ++ [content]).take pre.length).map
        (FsEvent.write (tmpPath path)) := by
      have h1 : pre = (pre ++ (e :: suff')).take pre.length :=
        (List.take_left pre (e :: suff')).symm
      rw [← h, atomicWriteTrace] at h1
      rw [List.take_append_eq_append_take] at h1
      rw [List.length_map] at hle
      have h0 : pre.length - ((partials ++ [content]).map
          (FsEvent.write (tmpPath path))).length = 0 := by
        rw [List.length_map]
        omega
      rw [h0, List.take_zero, List.append_nil, ← List.map_take] at h1
      exact h1
    rw [hpre]
    exact applyTrace_writes_other (tmpPath path) path
      (Ne.symm (tmpPath_ne path)) _ fs₀

/-- Witness for `atomic_write_text_reader_safety`: a two-event prefix of
a concrete trace (the partial then full temporary-file writes) leaves the
final path's old content visible, and the full trace installs the new
content. -/
theorem atomic_write_text_reader_safety_witness :
    (applyTrace (fun _ => some "old")
        [FsEvent.write (tmpPath "index.json") "ne",
          FsEvent.write (tmpPath "index.json") "new"] "index.json" =
        (fun _ => some "old") "index.json" ∨
      applyTrace (fun _ => some "old")
        [FsEvent.write (tmpPath "index.json") "ne",
          FsEvent.write (tmpPath "index.json") "new"] "index.json" =
        some "new") ∧
    applyTrace (fun _ => some "old")
      (atomicWriteTrace "index.json" "new" ["ne"]) "index.json" =
      some "new" :=
  atomic_write_text_reader_safety "index.json" "new" ["ne"]
    (fun _ => some "old")
    [FsEvent.write (tmpPath "index.json") "ne",
      FsEvent.write (tmpPath "index.json") "new"]
    [FsEvent.rename (tmpPath "index.json") "index.json"] rfl

/-- C2 counterexample: the same (empty) diagnostic text parsed at two
capture instants yields two different documents — `meta.captured_at_utc`
comes from `datetime.now` at call time, so calling twice is not
byte-identical. -/
theorem parse_twice_not_identical_cex :
    parse_ss_tin_output "2025-01-01T00:00:00+00:00" "h1" "" ≠
      parse_ss_tin_output "2025-01-01T00:00:01+00:00" "h1" "" := by
  intro h
  have h2 := congrArg (Option.map ParseResult.captured_at_utc) h
  have h3 : (some "2025-01-01T00:00:00+00:00" : Option String) =
      some "2025-01-01T00:00:01+00:00" := h2
  injection h3 with h4
  exact absurd h4 (by decide)

/-- C2 amended: apart from the capture timestamp and hostname stamped
into `meta`, parsing is a pure function of the text — the `sockets`
array (the entire structured parse) is identical across any two calls on
the same text, whatever the two capture instants or hostnames. -/
theorem parse_sockets_deterministic :
    ∀ t₁ t₂ h₁ h₂ text,
      (parse_ss_tin_output t₁ h₁ text).map ParseResult.sockets =
        (parse_ss_tin_output t₂ h₂ text).map ParseResult.sockets := by
  intro t₁ t₂ h₁ h₂ text
  unfold parse_ss_tin_output
  cases processBlocks (split_blocks text) with
  | none => rfl
  | some socks => rfl

/-- Right-strip (the tail half of `strip()`) on a character list. -/
theorem rstrip_prefix (l : List Char) :
    (l.reverse.dropWhile pyIsSpace).reverse <+: l := by
  have h := List.dropWhile_suffix (l := l.reverse) pyIsSpace
  rw [← List.reverse_prefix] at h
  simpa using h

/-- A prefix test that succeeds on the fully stripped line also succeeds
on the left-stripped line: stripping the right end only removes a suffix. -/
theorem pyStartsWith_lstrip_of_strip (ln p : String)
    (h : pyStartsWith (pyStrip ln) p = true) :
    pyStartsWith (pyLstrip ln) p = true := by
  unfold pyStartsWith pyStrip pyLstrip stripChars lstripChars at *
  simp only [decide_eq_true_eq] at h ⊢
  obtain ⟨t, ht⟩ := rstrip_prefix (ln.data.dropWhile pyIsSpace)
  have hlen : p.data.length ≤
      ((ln.data.dropWhile pyIsSpace).reverse.dropWhile pyIsSpace).reverse.length := by
    have := congrArg List.length h
    simp only [List.length_take] at this
    omega
  rw [← ht, List.take_append_eq_append_take,
    Nat.sub_eq_zero_of_le hlen, List.take_zero, List.append_nil]
  exact h

/-- The fold invariant behind C9: every block that `splitBlocksGo` emits
has a header that does not begin with `State ` and continuation lines
that are non-empty and do not begin with `State `, provided the carried
header and continuation accumulator already satisfy this. -/
theorem splitBlocksGo_good :
    ∀ (lines : List String) (cur : Option String) (cc : List String),
      (∀ hc, cur = some hc → pyStartsWith hc "State " = false) →
      (∀ c ∈ cc, pyStartsWith c "State " = false ∧ c ≠ "") →
      ∀ b ∈ splitBlocksGo lines cur cc,
        pyStartsWith b.1 "State " = false ∧
        ∀ c ∈ b.2, pyStartsWith c "State " = false ∧ c ≠ "" := by
  intro lines
  induction lines with
  | nil =>
    intro cur cc hcur hcc b hb
    cases cur with
    | none => simp [splitBlocksGo] at hb
    | some h =>
      simp only [splitBlocksGo, List.mem_singleton] at hb
      subst hb
      exact ⟨hcur h rfl, hcc⟩
  | cons ln rest ih =>
    intro cur cc hcur hcc b hb
    rw [splitBlocksGo.eq_def] at hb
    simp only at hb
    by_cases h1 : pyStrip ln = ""
    · rw [if_pos h1] at hb
      exact ih cur cc hcur hcc b hb
    · rw [if_neg h1] at hb
      by_cases h2 : pyStartsWith (pyLstrip ln) "State " = true
      · rw [if_pos h2] at hb
        exact ih cur cc hcur hcc b hb
      · rw [if_neg h2] at hb
        have hnostate : pyStartsWith (pyStrip ln) "State " = false := by
          cases hsw : pyStartsWith (pyStrip ln) "State " with
          | false => rfl
          | true => exact absurd (pyStartsWith_lstrip_of_strip ln "State " hsw) h2
        by_cases h3 : firstCharIsSpace ln = true
        · rw [if_pos h3] at hb
          cases cur with
          | some h =>
            simp only at hb
            refine ih (some h) (cc ++ [pyStrip ln]) hcur ?_ b hb
            intro c hcmem
            rcases List.mem_append.mp hcmem with hin | hnew
            · exact hcc c hin
            · rw [List.mem_singleton] at hnew
              subst hnew
              exact ⟨hnostate, h1⟩
          | none =>
            simp only at hb
            rcases List.mem_cons.mp hb with hhead | htail
            · subst hhead
              refine ⟨(by decide : pyStartsWith "" "State " = false), ?_⟩
              intro c hcmem
              rw [List.mem_singleton] at hcmem
              subst hcmem
              exact ⟨hnostate, h1⟩
            · exact ih none cc hcur hcc b htail
        · rw [if_neg h3] at hb
          have hcurnew : ∀ hc, some (pyStrip ln) = some hc →
              pyStartsWith hc "State " = false := by
            intro hc hEq
            injection hEq with hEq
            exact hEq ▸ hnostate
          cases cur with
          | some h =>
            simp only at hb
            rcases List.mem_cons.mp hb with hhead | htail
            · subst hhead
              exact ⟨hcur h rfl, hcc⟩
            · exact ih (some (pyStrip ln)) [] hcurnew (by simp) b htail
          | none =>
            simp only at hb
            exact ih (some (pyStrip ln)) [] hcurnew (by simp) b hb

/-- C9: `split_blocks` excludes every line whose whitespace-stripped
content begins with `State ` — whether indented or not — and silently
drops every blank line: no emitted block header begins with `State `,
and no continuation line begins with `State ` or is empty. -/
theorem split_blocks_excludes_state_and_blank (text : String) :
    ∀ b ∈ split_blocks text,
      pyStartsWith b.1 "State " = false ∧
      ∀ c ∈ b.2, pyStartsWith c "State " = false ∧ c ≠ "" :=
  splitBlocksGo_good (pySplitlines text) none []
    (fun _ h => by cases h) (fun c hc => by cases hc)

/-- Witness for `split_blocks_excludes_state_and_blank` on a dump with a
header row, a blank line, an indented `State `-continuation, a real
header and a real continuation. -/
theorem split_blocks_excludes_state_and_blank_witness :
    pyStartsWith "H 1 2 a b" "State " = false ∧
    ∀ c ∈ ["x y"], pyStartsWith c "State " = false ∧ c ≠ "" :=
  split_blocks_excludes_state_and_blank
    "State Recv-Q\n\n  State z\nH 1 2 a b\n  x y\n"
    ("H 1 2 a b", ["x y"]) (by decide)

/-- The socket list produced from a block list: one record per block
with a non-empty header (matched or raw), with unmatched non-empty
headers preserved as raw entries. -/
theorem processBlocks_spec :
    ∀ (blocks : List (String × List String)) (socks : List SocketEntry),
      processBlocks blocks = some socks →
      socks.length = (blocks.filter (fun b => b.1 ≠ "")).length ∧
      ∀ h cont, (h, cont) ∈ blocks → h ≠ "" → matchHeader h = none →
        SocketEntry.raw h cont ∈ socks := by
  intro blocks
  induction blocks with
  | nil =>
    intro socks hp
    simp only [processBlocks, Option.some.injEq] at hp
    subst hp
    exact ⟨rfl, by intro h cont hmem; cases hmem⟩
  | cons b rest ih =>
    intro socks hp
    obtain ⟨h, cont⟩ := b
    rw [processBlocks.eq_def] at hp
    simp only at hp
    by_cases hh : h = ""
    · rw [if_pos hh] at hp
      obtain ⟨hlen, hmem⟩ := ih socks hp
      refine ⟨by rw [List.filter_cons_of_neg (by simpa using hh)]; exact hlen, ?_⟩
      intro h' cont' hmem' hne' hmh'
      rcases List.mem_cons.mp hmem' with hEq | htail
      · exact absurd (congrArg Prod.fst hEq) (by simpa [hh] using hne')
      · exact hmem h' cont' htail hne' hmh'
    · rw [if_neg hh] at hp
      cases hmh : matchHeader h with
      | none =>
        rw [hmh] at hp
        cases hrest : processBlocks rest with
        | none => rw [hrest] at hp; cases hp
        | some l =>
          rw [hrest] at hp
          simp only [Option.some.injEq] at hp
          subst hp
          obtain ⟨hlen, hmem⟩ := ih l hrest
          refine ⟨?_, ?_⟩
          · rw [List.filter_cons_of_pos (by simpa using hh)]
            simp [hlen]
          · intro h' cont' hmem' hne' hmh'
            rcases List.mem_cons.mp hmem' with hEq | htail
            · rw [Prod.mk.injEq] at hEq
              rw [hEq.1, hEq.2]
              exact List.mem_cons_self _ _
            · exact List.mem_cons_of_mem _ (hmem h' cont' htail hne' hmh')
      | some g =>
        rw [hmh] at hp
        cases hm : parse_metrics cont with
        | none => rw [hm] at hp; cases hp
        | some m =>
          rw [hm] at hp
          cases hrest : processBlocks rest with
          | none => rw [hrest] at hp; cases hp
          | some l =>
            rw [hrest] at hp
            simp only [Option.some.injEq] at hp
            subst hp
            obtain ⟨hlen, hmem⟩ := ih l hrest
            refine ⟨?_, ?_⟩
            · rw [List.filter_cons_of_pos (by simpa using hh)]
              simp [hlen]
            · intro h' cont' hmem' hne' hmh'
              rcases List.mem_cons.mp hmem' with hEq | htail
              · rw [Prod.mk.injEq] at hEq
                exact absurd hmh' (by rw [hEq.1]; simp [hmh])
              · exact List.mem_cons_of_mem _ (hmem h' cont' htail hne' hmh')

/-- C1 counterexample: the input consisting of one stray continuation
line (indented, with no preceding header) produces one block in
`split_blocks` but zero records in `parse_ss_tin_output` — the parser's
`if not header: continue` drops the stray block, so the record count
does not match the block count and the stray line is discarded. -/
theorem parse_drops_stray_block_cex :
    (split_blocks "  x").length = 1 ∧
    (parse_ss_tin_output "t" "h" "  x").map
      (fun r => r.sockets.length) = some 0 :=
  ⟨rfl, rfl⟩

/-- C1 amended: whenever `parse_ss_tin_output` returns, its record count
equals the number of blocks with a **non-empty** header returned by
`split_blocks` — stray-continuation blocks (empty header) are dropped,
not preserved — and every block whose non-empty header fails the
five-field grammar is preserved as a raw/unparsed record. -/
theorem parse_record_count_amended :
    ∀ now ghn text r, parse_ss_tin_output now ghn text = some r →
      r.sockets.length =
        ((split_blocks text).filter (fun b => b.1 ≠ "")).length ∧
      ∀ h cont, (h, cont) ∈ split_blocks text → h ≠ "" →
        matchHeader h = none → SocketEntry.raw h cont ∈ r.sockets := by
  intro now ghn text r hp
  unfold parse_ss_tin_output at hp
  cases hb : processBlocks (split_blocks text) with
  | none => rw [hb] at hp; cases hp
  | some socks =>
    rw [hb] at hp
    simp only [Option.some.injEq] at hp
    subst hp
    exact processBlocks_spec (split_blocks text) socks hb

/-- Witness for `parse_record_count_amended` on the dump
`"bad\n x"`: the single unmatched header `bad` yields exactly one
(raw) record. -/
theorem parse_record_count_amended_witness :
    ([SocketEntry.raw "bad" ["x"]] : List SocketEntry).length =
      ((split_blocks "bad\n x").filter (fun b => b.1 ≠ "")).length ∧
    SocketEntry.raw "bad" ["x"] ∈
      ([SocketEntry.raw "bad" ["x"]] : List SocketEntry) := by
  have h := parse_record_count_amended "t" "h" "bad\n x"
    ⟨"t", "h", "ss -tin", [SocketEntry.raw "bad" ["x"]]⟩ rfl
  exact ⟨h.1, h.2 "bad" ["x"] (by decide) (by decide) rfl⟩

/-- C3 counterexample: four invocation attempts all exit 0 with output
`"hello"`, which fails the content heuristic — so **no** attempt is
accepted — yet `collect_and_write` marks the host `ok:true`, because its
success test is `rc == 0 and out.strip()`, not the acceptance
predicate.  The claim's "whenever no attempt is accepted, the host's run
is marked failed" is false here. -/
theorem accept_heuristic_not_gating_cex :
    ((List.replicate 4 (AttemptOutcome.completed 0 "hello" "")).all
      (fun a => !acceptedB a)) = true ∧
    run_ss_tin_on_host 10
      (List.replicate 4 (AttemptOutcome.completed 0 "hello" "")) =
      (0, "hello", "") ∧
    collect_and_write "now" "p" "g" "d" ["hs1"]
      (fun _ => (0, "hello", "")) (fun _ => false) =
      Except.ok
        (⟨"now", "d", [⟨"hs1", "hs1_ss_tin.json", true, 0, 1⟩]⟩,
          [("hs1_ss_tin.json",
            StoredDoc.snapshot ⟨"p", "g", "ss -tin",
              [SocketEntry.raw "hello" []]⟩ "hs1"),
            ("index.json",
              StoredDoc.index
                ⟨"now", "d", [⟨"hs1", "hs1_ss_tin.json", true, 0, 1⟩]⟩)]) :=
  ⟨rfl, rfl, rfl⟩

/-- C3 amended: an attempt is accepted exactly when its exit status is 0
and its output passes the content heuristic, and the first accepted
attempt's triple is returned with later variants skipped; when no
attempt is accepted the **final** attempt's triple is returned, and the
host is then marked failed (`ok:false`, with the return code, the
stripped error stream and a 2000-character stdout prefix) exactly when
that triple has a non-zero code or blank output — a rejected last
attempt with exit 0 and non-blank output is treated as a success
instead. -/
theorem run_first_accepted_and_failure_marking :
    (∀ rc out err, acceptedB (AttemptOutcome.completed rc out err) = true ↔
      (rc = 0 ∧ looks_like_ss out = true)) ∧
    (∀ (t : Int) (pre post : List AttemptOutcome) rc out err last,
      (∀ b ∈ pre, acceptedB b = false) →
      acceptedB (AttemptOutcome.completed rc out err) = true →
      runAttempts t (pre ++ AttemptOutcome.completed rc out err :: post) last =
        (rc, out, err)) ∧
    (∀ now pnow ghn host (runRes : String → Int × String × String)
        (wf : String → Bool) rc out err,
      runRes host = (rc, out, err) →
      ¬(rc = 0 ∧ pyStrip out ≠ "") →
      wf (host ++ "_ss_tin_error.json") = false →
      collectGo now pnow ghn runRes wf [host] [] [] =
        Except.ok ([⟨host, host ++ "_ss_tin_error.json", false, rc, 0⟩],
          [(host ++ "_ss_tin_error.json",
            StoredDoc.errorDoc now host rc (pyStrip err)
              ⟨out.data.take 2000⟩)])) := by
  refine ⟨?_, ?_, ?_⟩
  · intro rc out err
    simp [acceptedB]
  · intro t pre post rc out err
    induction pre with
    | nil =>
      intro last hpre hacc
      simp only [List.nil_append, runAttempts]
      rw [if_pos (by simpa [acceptedB] using hacc)]
    | cons b pre2 ih =>
      intro last hpre hacc
      have hb : acceptedB b = false := hpre b (List.mem_cons_self _ _)
      have hpre2 : ∀ x ∈ pre2, acceptedB x = false :=
        fun x hx => hpre x (List.mem_cons_of_mem _ hx)
      cases b with
      | completed rc2 out2 err2 =>
        simp only [List.cons_append, runAttempts]
        rw [if_neg (by simpa [acceptedB] using hb)]
        exact ih _ hpre2 hacc
      | timedOut out2 err2 =>
        simp only [List.cons_append, runAttempts]
        exact ih _ hpre2 hacc
  · intro now pnow ghn host runRes wf rc out err hrun hcond hwf
    rw [collectGo.eq_def]
    simp only [hrun]
    rw [if_neg (by simpa using hcond), if_neg (by simp [hwf])]
    rw [collectGo.eq_def]
    simp

/-- Witness for `run_first_accepted_and_failure_marking`: a rejected
first variant followed by an accepted one returns the accepted triple,
and a host whose run returned exit 1 is recorded as a failed entry with
the stripped stderr and the stdout prefix. -/
theorem run_first_accepted_and_failure_marking_witness :
    runAttempts 10
      [AttemptOutcome.completed 1 "" "",
        AttemptOutcome.completed 0 "ESTAB x" "e"] (1, "", "") =
      (0, "ESTAB x", "e") ∧
    collectGo "now" "p" "g" (fun _ => (1, "boom", " err ")) (fun _ => false)
      ["hs2"] [] [] =
      Except.ok ([⟨"hs2", "hs2_ss_tin_error.json", false, 1, 0⟩],
        [("hs2_ss_tin_error.json",
          StoredDoc.errorDoc "now" "hs2" 1 "err" "boom")]) := by
  constructor
  · exact run_first_accepted_and_failure_marking.2.1 10
      [AttemptOutcome.completed 1 "" ""] [] 0 "ESTAB x" "e" (1, "", "")
      (by intro b hb; rw [List.mem_singleton] at hb; subst hb; rfl)
      (by decide)
  · exact run_first_accepted_and_failure_marking.2.2 "now" "p" "g" "hs2"
      (fun _ => (1, "boom", " err ")) (fun _ => false) 1 "boom" " err "
      rfl (by decide) rfl

/-- C4 counterexample: a store write error while persisting the first
host's snapshot escapes `collect_and_write` (there is no try/except
around `atomic_write_text` in the loop): the second configured host is
never collected and the index is never rewritten in that sweep — the
sweep returns the propagated exception instead of an index. -/
theorem write_error_aborts_sweep_cex :
    collect_and_write "now" "p" "g" "d" ["hs1", "hs2"]
      (fun _ => (0, "ESTAB r", "")) (fun f => f = "hs1_ss_tin.json") =
      Except.error "write hs1_ss_tin.json" :=
  rfl

/-- Entries accumulate one per processed host, in order. -/
theorem collectGo_hosts_in_order :
    ∀ (hosts : List String) now pnow ghn
      (runRes : String → Int × String × String) (wf : String → Bool)
      (acc : List IndexEntry) (ws : List (String × StoredDoc))
      (es : List IndexEntry) (ws' : List (String × StoredDoc)),
      collectGo now pnow ghn runRes wf hosts acc ws = Except.ok (es, ws') →
      es.map (fun e => e.host) = acc.map (fun e => e.host) ++ hosts := by
  intro hosts
  induction hosts with
  | nil =>
    intro now pnow ghn runRes wf acc ws es ws' hp
    simp only [collectGo, Except.ok.injEq, Prod.mk.injEq] at hp
    rw [← hp.1]
    simp
  | cons host rest ih =>
    intro now pnow ghn runRes wf acc ws es ws' hp
    rw [collectGo.eq_def] at hp
    simp only at hp
    split at hp
    · split at hp
      · cases hp
      · split at hp
        · cases hp
        · have h := ih now pnow ghn runRes wf _ _ es ws' hp
          rw [h]
          simp
    · split at hp
      · cases hp
      · have h := ih now pnow ghn runRes wf _ _ es ws' hp
        rw [h]
        simp

/-- C4 amended: when the sweep completes (no write error and no parser
exception escaped), the rebuilt index contains exactly one entry per
configured host, in configuration order; and if no store write fails and
every successful host's output parses, the sweep **does** complete — so
a host command failure alone never prevents the other hosts or the index
rewrite.  (A store write error, by contrast, aborts the remainder of the
sweep, as the counterexample shows.) -/
theorem index_lists_hosts_in_order :
    (∀ now pnow ghn d hosts runRes wf idx ws,
      collect_and_write now pnow ghn d hosts runRes wf = Except.ok (idx, ws) →
      idx.hosts.map (fun e => e.host) = hosts) ∧
    (∀ now pnow ghn d hosts (runRes : String → Int × String × String)
        (wf : String → Bool),
      (∀ f, wf f = false) →
      (∀ h, (runRes h).1 = 0 →
        parse_ss_tin_output pnow ghn (runRes h).2.1 ≠ none) →
      ∃ idx ws, collect_and_write now pnow ghn d hosts runRes wf =
        Except.ok (idx, ws)) := by
  constructor
  · intro now pnow ghn d hosts runRes wf idx ws hp
    unfold collect_and_write at hp
    cases hgo : collectGo now pnow ghn runRes wf hosts [] [] with
    | error e => rw [hgo] at hp; cases hp
    | ok p =>
      obtain ⟨es, ws0⟩ := p
      rw [hgo] at hp
      simp only at hp
      split at hp
      · cases hp
      · simp only [Except.ok.injEq, Prod.mk.injEq] at hp
        have h := collectGo_hosts_in_order hosts now pnow ghn runRes wf
          [] [] es ws0 hgo
        rw [← hp.1]
        simpa using h
  · intro now pnow ghn d hosts runRes wf hwf hparse
    have hgo : ∀ (hs : List String) acc ws, (∀ h ∈ hs, (runRes h).1 = 0 →
        parse_ss_tin_output pnow ghn (runRes h).2.1 ≠ none) →
        ∃ es ws', collectGo now pnow ghn runRes wf hs acc ws =
          Except.ok (es, ws') := by
      intro hs
      induction hs with
      | nil => intro acc ws _; exact ⟨acc, ws, rfl⟩
      | cons host rest ih =>
        intro acc ws hph
        rw [collectGo.eq_def]
        simp only
        by_cases h1 : (runRes host).1 = 0 ∧ pyStrip (runRes host).2.1 ≠ ""
        · rw [if_pos (by simpa using h1)]
          cases hpar : parse_ss_tin_output pnow ghn (runRes host).2.1 with
          | none =>
            exact absurd hpar
              (hph host (List.mem_cons_self _ _) h1.1)
          | some parsed =>
            simp only [hwf, Bool.false_eq_true, if_false]
            exact ih _ _ (fun x hx => hph x (List.mem_cons_of_mem _ hx))
        · rw [if_neg (by simpa using h1)]
          rw [if_neg (by simp [hwf])]
          exact ih _ _ (fun x hx => hph x (List.mem_cons_of_mem _ hx))
    obtain ⟨es, ws', hok⟩ := hgo hosts [] [] (fun h _ => hparse h)
    refine ⟨⟨now, d, es⟩, ws' ++ [("index.json", StoredDoc.index ⟨now, d, es⟩)], ?_⟩
    unfold collect_and_write
    rw [hok]
    simp only
    rw [if_neg (by simp [hwf])]

/-- Witness for `index_lists_hosts_in_order`: a two-host sweep — one
command failure, one success — completes with an index listing both
hosts in configuration order. -/
theorem index_lists_hosts_in_order_witness :
    ∃ idx ws, collect_and_write "now" "p" "g" "d" ["hs1", "hs2"]
      (fun h => if h = "hs1" then (1, "", "boom") else (0, "ESTAB r", ""))
      (fun _ => false) = Except.ok (idx, ws) :=
  index_lists_hosts_in_order.2 "now" "p" "g" "d" ["hs1", "hs2"]
    (fun h => if h = "hs1" then (1, "", "boom") else (0, "ESTAB r", ""))
    (fun _ => false) (fun _ => rfl)
    (by
      intro h hrc
      by_cases hh : h = "hs1"
      · subst hh
        simp at hrc
      · simp only [if_neg hh]
        intro hcontra
        cases hcontra)

theorem dictGet_dictSet_self (d : List (String × PyVal)) (k : String)
    (v : PyVal) : dictGet (dictSet d k v) k = some v := by
  induction d with
  | nil => simp [dictSet, dictGet]
  | cons e rest ih =>
    obtain ⟨k', v'⟩ := e
    by_cases h : k' = k
    · simp [dictSet, dictGet, h]
    · simp [dictSet, dictGet, h, ih]

theorem dictGet_dictSet_ne (d : List (String × PyVal)) (k k' : String)
    (v : PyVal) (h : k' ≠ k) :
    dictGet (dictSet d k v) k' = dictGet d k' := by
  induction d with
  | nil => simp [dictSet, dictGet, Ne.symm h]
  | cons e rest ih =>
    obtain ⟨k₀, v₀⟩ := e
    by_cases h₀ : k₀ = k
    · subst h₀
      simp [dictSet, dictGet, Ne.symm h]
    · simp only [dictSet, if_neg h₀, dictGet]
      by_cases h₁ : k₀ = k'
      · simp [h₁]
      · simp [h₁, ih]

/-- A key set by no group of `gs` is untouched by the groups loop. -/
theorem groupsLoop_get_of_not_mem (gs : List (String × String)) :
    ∀ (acc pg : List (String × PyVal)) (k : String),
      (∀ g ∈ gs, g.1 ≠ k) → groupsLoop acc gs = some pg →
      dictGet pg k = dictGet acc k := by
  induction gs with
  | nil =>
    intro acc pg k _ hp
    simp only [groupsLoop, Option.some.injEq] at hp
    rw [hp]
  | cons g rest ih =>
    intro acc pg k hne hp
    obtain ⟨n, b⟩ := g
    rw [groupsLoop.eq_def] at hp
    simp only at hp
    cases hb : parse_paren_body b with
    | none => rw [hb] at hp; cases hp
    | some d =>
      rw [hb] at hp
      have h1 := ih (dictSet acc n (PyVal.dict d)) pg k
        (fun x hx => hne x (List.mem_cons_of_mem _ hx)) hp
      rw [h1, dictGet_dictSet_ne]
      exact Ne.symm (hne (n, b) (List.mem_cons_self _ _))

/-- Every scanned group with a (duplicate-free) name ends up in the
groups dict with its independently parsed body. -/
theorem groupsLoop_get_of_mem (gs : List (String × String)) :
    ∀ (acc pg : List (String × PyVal)) (name body : String),
      (name, body) ∈ gs → (gs.map Prod.fst).Nodup →
      groupsLoop acc gs = some pg →
      ∃ d, parse_paren_body body = some d ∧
        dictGet pg name = some (PyVal.dict d) := by
  induction gs with
  | nil =>
    intro acc pg name body hmem
    cases hmem
  | cons g rest ih =>
    intro acc pg name body hmem hnd hp
    obtain ⟨n, b⟩ := g
    rw [groupsLoop.eq_def] at hp
    simp only at hp
    cases hb : parse_paren_body b with
    | none => rw [hb] at hp; cases hp
    | some d =>
      rw [hb] at hp
      rw [List.map_cons, List.nodup_cons] at hnd
      rcases List.mem_cons.mp hmem with hEq | htail
      · rw [Prod.mk.injEq] at hEq
        obtain ⟨hEq1, hEq2⟩ := hEq
        subst hEq1
        subst hEq2
        refine ⟨d, hb, ?_⟩
        have h1 := groupsLoop_get_of_not_mem rest
          (dictSet acc name (PyVal.dict d)) pg name ?_ hp
        · rw [h1, dictGet_dictSet_self]
        · intro x hx hx1
          exact hnd.1 (List.mem_map.mpr ⟨x, hx, hx1⟩)
      · exact ih (dictSet acc n (PyVal.dict d)) pg name body htail hnd.2 hp

/-- C7: named metric groups.  The group text
`"bbr:(bw:100bps,mrtt:1.2)"` yields a metrics mapping whose `groups.bbr`
is `{bw: {value:100, unit:"bps"}, mrtt: 1.2}`, with `bw` and `mrtt`
absent from the outer mapping (their span is removed before outer
tokenisation); and in general every occurrence `name:(body)` found by
the scanner (names duplicate-free — a repeated name keeps only its last
body) is parsed independently by `parse_paren_body` — which applies
`coerce_value` to each `key:value` pair — and stored in the groups dict
under `name`. -/
theorem parse_metrics_groups :
    (parse_metrics ["bbr:(bw:100bps,mrtt:1.2)"] =
      some [("raw", PyVal.str "bbr:(bw:100bps,mrtt:1.2)"),
        ("groups", PyVal.dict [("bbr", PyVal.dict
          [("bw", PyVal.dict [("value", PyVal.int 100),
            ("unit", PyVal.str "bps")]),
            ("mrtt", PyVal.float 12 1)])])]) ∧
    (dictGet [("raw", PyVal.str "bbr:(bw:100bps,mrtt:1.2)"),
        ("groups", PyVal.dict [("bbr", PyVal.dict
          [("bw", PyVal.dict [("value", PyVal.int 100),
            ("unit", PyVal.str "bps")]),
            ("mrtt", PyVal.float 12 1)])])] "bw" = none ∧
      dictGet [("raw", PyVal.str "bbr:(bw:100bps,mrtt:1.2)"),
        ("groups", PyVal.dict [("bbr", PyVal.dict
          [("bw", PyVal.dict [("value", PyVal.int 100),
            ("unit", PyVal.str "bps")]),
            ("mrtt", PyVal.float 12 1)])])] "mrtt" = none) ∧
    (∀ (cs : List Char) (pg : List (String × PyVal)) (name body : String),
      (name, body) ∈ (scanGroups cs).1 →
      ((scanGroups cs).1.map Prod.fst).Nodup →
      groupsLoop [] (scanGroups cs).1 = some pg →
      ∃ d, parse_paren_body body = some d ∧
        dictGet pg name = some (PyVal.dict d)) :=
  ⟨rfl, ⟨rfl, rfl⟩,
    fun cs pg name body hmem hnd hp =>
      groupsLoop_get_of_mem (scanGroups cs).1 [] pg name body hmem hnd hp⟩

/-- Witness for `parse_metrics_groups`: the scanner output of
`"skmem:(r0,rb131072) bbr:(bw:100bps)"` contains `("bbr", "bw:100bps")`,
whose parsed body is stored under `groups.bbr`. -/
theorem parse_metrics_groups_witness :
    ∃ d, parse_paren_body "bw:100bps" = some d ∧
      dictGet [("skmem", PyVal.dict [("items",
          PyVal.list [PyVal.str "r0", PyVal.str "rb131072"])]),
        ("bbr", PyVal.dict [("bw", PyVal.dict [("value", PyVal.int 100),
          ("unit", PyVal.str "bps")])])] "bbr" =
        some (PyVal.dict d) :=
  parse_metrics_groups.2.2 "skmem:(r0,rb131072) bbr:(bw:100bps)".data
    [("skmem", PyVal.dict [("items",
        PyVal.list [PyVal.str "r0", PyVal.str "rb131072"])]),
      ("bbr", PyVal.dict [("bw", PyVal.dict [("value", PyVal.int 100),
        ("unit", PyVal.str "bps")])])]
    "bbr" "bw:100bps" (by decide) (by decide) rfl

end AqmCca
